import Mathlib

/-!
Verification of the in-memory multi-key-indexed record container
(`mythologizer/registry/registry.py`).

Shallow embedding conventions:
* Python strings are embedded as `List Char` (`Str`), so that the character
  surgery done by `pluralize` is directly expressible.
* Runtime values that can sit in a record attribute or be used as a lookup
  key are embedded as `Val` (strings, `uuid.UUID` values, ints, bools).
  Python's `isinstance` dispatch — including `bool` being a subclass of
  `int` — is embedded as `isinstance`, and Python `==` (under which
  `True == 1`) as `pyEq`.
* A record is an association list from attribute names to values
  (`getattr(rec, a)` becomes `getattrD rec a`; the claims only ever involve
  records that carry the attributes being read, so the out-of-scope
  missing-attribute `AttributeError` is replaced by a default value).
* Exceptions become `Except`/`Option` results; operations that can leave a
  partial mutation behind an exception (`append`, `__setitem__`,
  `__delitem__`) return the final store together with an optional error,
  mirroring the state Python leaves behind when the exception propagates.
-/

/-- Python strings, embedded as character lists. -/
abbrev Str := List Char

/-- Python `word.endswith(suffix)`, via reversed-prefix comparison. -/
def endswith (w suffix : Str) : Bool :=
  suffix.reverse.isPrefixOf w.reverse

/-- Membership of `c.lower()` in the vowel string `'aeiou'`
(from `word[-2].lower() not in 'aeiou'` in `pluralize`). -/
def isVowel (c : Char) : Bool :=
  ("aeiou".toList).contains c.toLower

/-- Python `word[-1-i]`: the `i`-th character counted from the end.
The default is irrelevant: every use is guarded by a length check,
exactly as in the source. -/
def charFromEnd (w : Str) (i : Nat) : Char :=
  w.reverse.getD i ' '

/-- `pluralize` from `registry.py`:
ends-with-`s` → unchanged; `y` after a non-vowel (and length > 1) →
`ies`; ends with `sh`/`ch`/`x`/`z` → append `es`; otherwise append `s`. -/
def pluralize (word : Str) : Str :=
  if endswith word ("s".toList) then word
  else if endswith word ("y".toList) && decide (1 < word.length)
          && !(isVowel (charFromEnd word 1)) then
    word.dropLast ++ ("ies".toList)
  else if endswith word ("sh".toList) || endswith word ("ch".toList)
          || endswith word ("x".toList) || endswith word ("z".toList) then
    word ++ ("es".toList)
  else word ++ ("s".toList)

/-- Type tags for `KeyConfig.expected_type` and `isinstance` dispatch:
`str`, `uuid.UUID`, `int`, `bool`. -/
inductive Ty where
  | str
  | uuid
  | int
  | bool
deriving DecidableEq

/-- Runtime values stored in record attributes and used as lookup keys.
`uuid` values are identified by a natural number. -/
inductive Val where
  | str (s : Str)
  | uuid (n : Nat)
  | int (n : Int)
  | bool (b : Bool)
deriving DecidableEq

/-- Python `int(b)` for a bool. -/
def boolToInt (b : Bool) : Int :=
  if b then 1 else 0

/-- Python `isinstance(v, int)` succeeds exactly on ints and bools
(`bool` is a subclass of `int`); this returns the integer such a value
denotes when used as a list index (`list[True]` is `list[1]`). -/
def Val.toIntVal : Val → Option Int
  | .int n => some n
  | .bool b => some (boolToInt b)
  | _ => none

/-- Python `==` on embedded values: structural equality, except that
ints and bools compare by numeric value (`True == 1`). -/
def pyEq : Val → Val → Bool
  | .str a, .str b => decide (a = b)
  | .uuid a, .uuid b => decide (a = b)
  | .int a, .int b => decide (a = b)
  | .bool a, .bool b => decide (a = b)
  | .int a, .bool b => decide (a = boolToInt b)
  | .bool a, .int b => decide (boolToInt a = b)
  | _, _ => false

/-- Python `isinstance(v, ty)` for the embedded types; a `bool` value is
also an instance of `int`. -/
def isinstance : Val → Ty → Bool
  | .str _, .str => true
  | .uuid _, .uuid => true
  | .int _, .int => true
  | .bool _, .int => true
  | .bool _, .bool => true
  | _, _ => false

/-- A record: named attributes with values (the element type is opaque and
duck-typed in the source). -/
abbrev Rec := List (Str × Val)

/-- Python `getattr(rec, a)`; the claims only involve records carrying the
attribute, so a missing attribute yields a default instead of
`AttributeError`. -/
def getattrD (r : Rec) (a : Str) : Val :=
  match r.lookup a with
  | some v => v
  | none => Val.str []

/-- `KeyConfig`: `prop_name` (dynamic property name), `attr_name`
(attribute read off each record), `expected_type` (dispatch type tag). -/
structure KeyConfig where
  prop_name : Str
  attr_name : Str
  expected_type : Ty
deriving DecidableEq

/-- Python `str.isidentifier`, modelled for ASCII: a first letter or
underscore followed by letters, digits or underscores. -/
def isidentifier : Str → Bool
  | [] => false
  | c :: rest => (c.isAlpha || c == '_') && rest.all (fun d => d.isAlphanum || d == '_')

/-- Python `str.isdigit`, modelled for ASCII digits. -/
def isdigit (w : Str) : Bool :=
  !w.isEmpty && w.all Char.isDigit

/-- The `validate_prop_name` validator on `KeyConfig`:
`prop_name` must be an identifier and not purely numeric. -/
def validPropName (cfg : KeyConfig) : Bool :=
  isidentifier cfg.prop_name && !(isdigit cfg.prop_name)

/-- The `_validate_key_configs` validator: walking the configs in order
with the set of non-UUID `expected_type`s seen so far, a repeated
non-UUID type is a `SchemaError`. -/
def validateKeyConfigsAux (seen : List Ty) : List KeyConfig → Bool
  | [] => true
  | cfg :: rest =>
    if cfg.expected_type = Ty.uuid then validateKeyConfigsAux seen rest
    else if seen.contains cfg.expected_type then false
    else validateKeyConfigsAux (cfg.expected_type :: seen) rest

/-- The `Registry` state: the validated key schema and the ordered
record store. -/
structure Registry where
  key_configs : List KeyConfig
  records : List Rec
deriving DecidableEq

/-- Registry construction: pydantic validates each `KeyConfig`'s
`prop_name` and the schema's type-tag uniqueness, but performs no check
whatsoever on the initial records. -/
def mkRegistry (configs : List KeyConfig) (initial : List Rec) : Option Registry :=
  if configs.all validPropName && validateKeyConfigsAux [] configs then
    some { key_configs := configs, records := initial }
  else none

/-- Errors raised by the registry operations:
`DuplicateKeyError` (`ValueError` in `_check_uniqueness`), the ambiguous-
and not-found lookup failures, positional `IndexError`, and the
batched-replace count mismatch. -/
inductive RegError where
  | duplicateKey (prop_name : Str) (v : Val)
  | ambiguousKey (v : Val)
  | keyNotFound (v : Val)
  | indexOutOfRange (i : Int)
  | countMismatch
deriving DecidableEq

deriving instance DecidableEq for Except

/-- The inner `for i, existing in enumerate(self.records)` loop of
`_check_uniqueness`, started at position `i`: is there a record, other
than the one at `exclude`, whose value at `attr` Python-equals `v`? -/
def collidesFrom (i : Nat) (records : List Rec) (attr : Str) (v : Val)
    (exclude : Option Nat) : Bool :=
  match records with
  | [] => false
  | rec :: rest =>
    ((match exclude with
      | some e => decide (i ≠ e)
      | none => true) && pyEq (getattrD rec attr) v)
    || collidesFrom (i + 1) rest attr v exclude

/-- The outer loop of `_check_uniqueness` over the key configs: UUID-typed
configs are skipped; the first collision raises
`DuplicateKeyError(prop_name, value)`. -/
def checkUniquenessAux (records : List Rec) (record : Rec) (exclude : Option Nat) :
    List KeyConfig → Except RegError Unit
  | [] => .ok ()
  | cfg :: rest =>
    if cfg.expected_type = Ty.uuid then checkUniquenessAux records record exclude rest
    else if collidesFrom 0 records cfg.attr_name (getattrD record cfg.attr_name) exclude then
      .error (.duplicateKey cfg.prop_name (getattrD record cfg.attr_name))
    else checkUniquenessAux records record exclude rest

/-- `Registry._check_uniqueness(record, exclude_index)`. -/
def check_uniqueness (reg : Registry) (record : Rec) (exclude : Option Nat) :
    Except RegError Unit :=
  checkUniquenessAux reg.records record exclude reg.key_configs

/-- The loop body of `Registry.append`: each record is checked (with no
exclusion) and then appended; the first failure stops the loop, leaving
the records appended so far in place. -/
def appendList (reg : Registry) : List Rec → Registry × Option RegError
  | [] => (reg, none)
  | r :: rest =>
    match check_uniqueness reg r none with
    | .error e => (reg, some e)
    | .ok _ => appendList { reg with records := reg.records ++ [r] } rest

/-- Argument of `Registry.append`: a single record or a list of records
(`ensure_list` wraps the former). -/
inductive RecArg where
  | one (r : Rec)
  | many (rs : List Rec)

/-- `ensure_list` on an append argument. -/
def ensureListRec : RecArg → List Rec
  | .one r => [r]
  | .many rs => rs

/-- `Registry.append(record | records)`. -/
def appendReg (reg : Registry) (arg : RecArg) : Registry × Option RegError :=
  appendList reg (ensureListRec arg)

/-- The `[i for i, rec in enumerate(self.records) if getattr(rec, attr) == key]`
comprehension of `resolve_index_by_key`, started at position `i`. -/
def matchIndicesFrom (i : Nat) (records : List Rec) (attr : Str) (v : Val) : List Nat :=
  match records with
  | [] => []
  | rec :: rest =>
    (if pyEq (getattrD rec attr) v then [i] else [])
      ++ matchIndicesFrom (i + 1) rest attr v

/-- The loop of `resolve_index_by_key` over the key configs: the first
config whose `expected_type` the key value is an instance of is searched;
no match is `None`, more than one match is `AmbiguousKeyError`, and a
value matching no config's type is `None`. -/
def resolveIndexByKeyAux (records : List Rec) (v : Val) :
    List KeyConfig → Except RegError (Option Nat)
  | [] => .ok none
  | cfg :: rest =>
    if isinstance v cfg.expected_type then
      let indices := matchIndicesFrom 0 records cfg.attr_name v
      if indices.isEmpty then .ok none
      else if 1 < indices.length then .error (.ambiguousKey v)
      else .ok (some (indices.headD 0))
    else resolveIndexByKeyAux records v rest

/-- `Registry.resolve_index_by_key(key_value)`. -/
def resolve_index_by_key (reg : Registry) (v : Val) : Except RegError (Option Nat) :=
  resolveIndexByKeyAux reg.records v reg.key_configs

/-- `Registry._resolve_index(key)`: an `isinstance(key, int)` key (which
includes bools) is validated as a raw position; anything else goes through
`resolve_index_by_key`, with `None` turned into `KeyError`. -/
def resolve_index (reg : Registry) (key : Val) : Except RegError Nat :=
  match key.toIntVal with
  | some n =>
    if n < 0 ∨ (reg.records.length : Int) ≤ n then .error (.indexOutOfRange n)
    else .ok n.toNat
  | none =>
    match resolve_index_by_key reg key with
    | .error e => .error e
    | .ok none => .error (.keyNotFound key)
    | .ok (some i) => .ok i

/-- Argument of the keyed operations: a single key or a list of keys
(`ensure_list` wraps the former). A Python `set` argument is normalized
by `list(keys)` in unspecified order and is out of scope here. -/
inductive KeyArg where
  | one (v : Val)
  | many (vs : List Val)

/-- `ensure_list` on a key argument. -/
def ensureListKey : KeyArg → List Val
  | .one v => [v]
  | .many vs => vs

/-- The `[self._resolve_index(k) for k in keys]` comprehension: keys are
resolved left to right, the first failure propagating. -/
def mapResolve (reg : Registry) : List Val → Except RegError (List Nat)
  | [] => .ok []
  | k :: rest =>
    match resolve_index reg k with
    | .error e => .error e
    | .ok i =>
      match mapResolve reg rest with
      | .error e => .error e
      | .ok is => .ok (i :: is)

/-- `Registry._resolve_indices(keys)`. -/
def resolve_indices (reg : Registry) (keys : KeyArg) : Except RegError (List Nat) :=
  mapResolve reg (ensureListKey keys)

/-- Result shape of `Registry.__getitem__`: a bare record when exactly one
index was resolved, otherwise a list of records. -/
inductive GetResult where
  | single (r : Rec)
  | multiple (rs : List Rec)
deriving DecidableEq

/-- `Registry.__getitem__(key)`:
`self.records[indices[0]] if len(indices) == 1 else [self.records[i] for i in indices]`.
Resolved indices are always in range, so the in-range list reads are
embedded with a default. -/
def getitem (reg : Registry) (key : KeyArg) : Except RegError GetResult :=
  match resolve_indices reg key with
  | .error e => .error e
  | .ok indices =>
    if indices.length = 1 then .ok (.single (reg.records.getD (indices.headD 0) []))
    else .ok (.multiple (indices.map fun i => reg.records.getD i []))

/-- The `for i, val in zip(indices, values)` loop of `Registry.__setitem__`:
each value is checked excluding its target index and then written; the
first failure stops the loop, leaving earlier writes in place. -/
def setitemLoop (configs : List KeyConfig) (records : List Rec) :
    List (Nat × Rec) → List Rec × Option RegError
  | [] => (records, none)
  | (i, val) :: rest =>
    match checkUniquenessAux records val (some i) configs with
    | .error e => (records, some e)
    | .ok _ => setitemLoop configs (records.set i val) rest

/-- `Registry.__setitem__(key, value)`: resolve all indices first, require
equal counts, then write pairwise. -/
def setitem (reg : Registry) (key : KeyArg) (value : RecArg) : Registry × Option RegError :=
  match resolve_indices reg key with
  | .error e => (reg, some e)
  | .ok indices =>
    let values := ensureListRec value
    if indices.length ≠ values.length then (reg, some .countMismatch)
    else
      let out := setitemLoop reg.key_configs reg.records (indices.zip values)
      ({ reg with records := out.1 }, out.2)

/-- Python `sorted(indices, reverse=True)`: on naturals any comparison
sort agrees with the stable one, so insertion sort by `≥` is used. -/
def sortDesc (l : List Nat) : List Nat :=
  l.insertionSort (fun a b => a ≥ b)

/-- The `for i in indices: self.records.pop(i)` loop of
`Registry.__delitem__`: `pop` on an out-of-range index raises
`IndexError`, leaving the earlier pops applied. -/
def popLoop (records : List Rec) : List Nat → List Rec × Option RegError
  | [] => (records, none)
  | i :: rest =>
    if i < records.length then popLoop (records.take i ++ records.drop (i + 1)) rest
    else (records, some (.indexOutOfRange (Int.ofNat i)))

/-- `Registry.__delitem__(key)`: resolve, sort descending, pop each. -/
def delitem (reg : Registry) (key : KeyArg) : Registry × Option RegError :=
  match resolve_indices reg key with
  | .error e => (reg, some e)
  | .ok indices =>
    let out := popLoop reg.records (sortDesc indices)
    ({ reg with records := out.1 }, out.2)

/-- The dynamic-attribute branch of `Registry.__getattr__`: with no
records the record type cannot be determined and the access raises
`AttributeError` (`none` here); otherwise the element type's field names
(taken from pydantic `__fields__`, embedded as the first record's
attribute names) are pluralized into a dict — later entries overwriting
earlier ones on collision, hence the reversed lookup — and a hit returns
that attribute's value across all records in store order. -/
def dynamic_getattr (reg : Registry) (name : Str) : Option (List Val) :=
  match reg.records with
  | [] => none
  | r0 :: _ =>
    let attr_names := r0.map Prod.fst
    let plural_to_singular := attr_names.map (fun a => (pluralize a, a))
    match plural_to_singular.reverse.lookup name with
    | some singular => some (reg.records.map fun rec => getattrD rec singular)
    | none => none

/-- `Registry.clear()`. -/
def clearReg (reg : Registry) : Registry :=
  { reg with records := [] }

/-- `Registry.__len__()`. -/
def lenReg (reg : Registry) : Nat :=
  reg.records.length

/-!
Specification-side definitions: the properties the claims quantify over.
-/

/-- No two records of `records` have Python-equal values at `attr`. -/
def attrUnique (records : List Rec) (attr : Str) : Prop :=
  ∀ i j, i < records.length → j < records.length → i ≠ j →
    pyEq (getattrD (records.getD i []) attr) (getattrD (records.getD j []) attr) = false

/-- The uniqueness invariant: `attrUnique` at the source attribute of
every non-UUID key declaration. -/
def uniqueInv (reg : Registry) : Prop :=
  ∀ cfg ∈ reg.key_configs, cfg.expected_type ≠ Ty.uuid →
    attrUnique reg.records cfg.attr_name

/-- The records of `records` whose position (counted from `k`) is not
listed in `idxs`, in their original order: the intended net effect of a
batched delete. -/
def removeIdxsFrom (k : Nat) (idxs : List Nat) : List Rec → List Rec
  | [] => []
  | r :: rest =>
    (if k ∈ idxs then [] else [r]) ++ removeIdxsFrom (k + 1) idxs rest

/-!
Helper lemmas about the embedded values and list operations.
-/

theorem pyEq_refl (v : Val) : pyEq v v = true := by
  cases v <;> simp [pyEq]

theorem pyEq_comm (a b : Val) : pyEq a b = pyEq b a := by
  cases a <;> cases b <;> simp [pyEq, eq_comm]

theorem listGetD_append_lt (l l' : List Rec) (d : Rec) (i : Nat) (h : i < l.length) :
    (l ++ l').getD i d = l.getD i d := by
  induction l generalizing i with
  | nil => simp at h
  | cons a t ih =>
    cases i with
    | zero => rfl
    | succ j => simpa using ih j (by simpa using h)

theorem listGetD_append_len (l l' : List Rec) (d : Rec) :
    (l ++ l').getD l.length d = l'.getD 0 d := by
  induction l with
  | nil => rfl
  | cons a t ih => simpa using ih

theorem listGetD_set_self (l : List Rec) (a d : Rec) (i : Nat) (h : i < l.length) :
    (l.set i a).getD i d = a := by
  induction l generalizing i with
  | nil => simp at h
  | cons b t ih =>
    cases i with
    | zero => rfl
    | succ j => simpa using ih j (by simpa using h)

theorem listGetD_set_ne (l : List Rec) (a d : Rec) (i j : Nat) (h : i ≠ j) :
    (l.set i a).getD j d = l.getD j d := by
  induction l generalizing i j with
  | nil => rfl
  | cons b t ih =>
    cases i with
    | zero =>
      cases j with
      | zero => exact absurd rfl h
      | succ k => rfl
    | succ i' =>
      cases j with
      | zero => rfl
      | succ k => simpa using ih i' k (by omega)

theorem listSet_oob (l : List Rec) (a : Rec) (i : Nat) (h : l.length ≤ i) :
    l.set i a = l := by
  induction l generalizing i with
  | nil => rfl
  | cons b t ih =>
    cases i with
    | zero => simp at h
    | succ j => simpa using ih j (by simpa using h)

/-!
Lemmas about the uniqueness check.
-/

theorem collidesFrom_none_false_iff (records : List Rec) (attr : Str) (v : Val) (i : Nat) :
    collidesFrom i records attr v none = false ↔
      ∀ r ∈ records, pyEq (getattrD r attr) v = false := by
  induction records generalizing i with
  | nil => simp [collidesFrom]
  | cons rec rest ih =>
    simp only [collidesFrom, Bool.or_eq_false_iff, Bool.and_eq_false_iff, List.mem_cons]
    constructor
    · rintro ⟨h1, h2⟩ r hr
      rcases hr with rfl | hr
      · rcases h1 with h1 | h1
        · simp at h1
        · exact h1
      · exact (ih (i + 1)).mp h2 r hr
    · intro h
      exact ⟨Or.inr (h _ (Or.inl rfl)), (ih (i + 1)).mpr fun r hr => h r (Or.inr hr)⟩

theorem collidesFrom_some_false_iff (records : List Rec) (attr : Str) (v : Val)
    (e : Nat) (i : Nat) :
    collidesFrom i records attr v (some e) = false ↔
      ∀ j, j < records.length → i + j ≠ e →
        pyEq (getattrD (records.getD j []) attr) v = false := by
  induction records generalizing i with
  | nil => simp [collidesFrom]
  | cons rec rest ih =>
    simp only [collidesFrom, Bool.or_eq_false_iff, Bool.and_eq_false_iff]
    constructor
    · rintro ⟨h1, h2⟩ j hj hij
      cases j with
      | zero =>
        rcases h1 with h1 | h1
        · simp only [decide_eq_false_iff_not, Decidable.not_not] at h1
          exact absurd h1 (by simpa using hij)
        · simpa [List.getD] using h1
      | succ k =>
        have := (ih (i + 1)).mp h2 k (by simpa using hj) (by omega)
        simpa [List.getD] using this
    · intro h
      constructor
      · by_cases he : i = e
        · exact Or.inl (by simp [he])
        · exact Or.inr (by simpa [List.getD] using h 0 (by simp) (by simpa using he))
      · exact (ih (i + 1)).mpr fun k hk hik => by
          simpa [List.getD] using h (k + 1) (by simpa using hk) (by omega)

theorem checkUniquenessAux_ok_iff (records : List Rec) (r : Rec) (ex : Option Nat)
    (cfgs : List KeyConfig) :
    checkUniquenessAux records r ex cfgs = .ok () ↔
      ∀ cfg ∈ cfgs, cfg.expected_type ≠ Ty.uuid →
        collidesFrom 0 records cfg.attr_name (getattrD r cfg.attr_name) ex = false := by
  induction cfgs with
  | nil => simp [checkUniquenessAux]
  | cons cfg rest ih =>
    simp only [checkUniquenessAux]
    by_cases hu : cfg.expected_type = Ty.uuid
    · simp only [if_pos hu, ih]
      constructor
      · intro h c hc hcu
        rcases List.mem_cons.mp hc with rfl | hc
        · exact absurd hu hcu
        · exact h c hc hcu
      · intro h c hc hcu
        exact h c (List.mem_cons_of_mem _ hc) hcu
    · simp only [if_neg hu]
      by_cases hcol : collidesFrom 0 records cfg.attr_name (getattrD r cfg.attr_name) ex
      · simp only [if_pos hcol]
        constructor
        · intro h
          exact absurd h (by simp)
        · intro h
          exact absurd (h cfg (List.mem_cons_self _ _) hu) (by simp [hcol])
      · simp only [if_neg hcol, ih]
        constructor
        · intro h c hc hcu
          rcases List.mem_cons.mp hc with rfl | hc
          · simpa using hcol
          · exact h c hc hcu
        · intro h c hc hcu
          exact h c (List.mem_cons_of_mem _ hc) hcu

/-- All-UUID schemas never produce a `DuplicateKeyError`. -/
theorem checkUniquenessAux_all_uuid (records : List Rec) (r : Rec) (ex : Option Nat)
    (cfgs : List KeyConfig) (h : ∀ cfg ∈ cfgs, cfg.expected_type = Ty.uuid) :
    checkUniquenessAux records r ex cfgs = .ok () :=
  (checkUniquenessAux_ok_iff records r ex cfgs).mpr fun cfg hc hcu =>
    absurd (h cfg hc) hcu

/-!
Lemmas about key-to-index resolution.
-/

theorem matchIndicesFrom_append (xs ys : List Rec) (attr : Str) (v : Val) (i : Nat) :
    matchIndicesFrom i (xs ++ ys) attr v =
      matchIndicesFrom i xs attr v ++ matchIndicesFrom (i + xs.length) ys attr v := by
  induction xs generalizing i with
  | nil => simp [matchIndicesFrom]
  | cons rec rest ih =>
    simp only [List.cons_append, matchIndicesFrom, List.append_eq, List.length_cons,
      List.append_assoc]
    rw [ih (i + 1)]
    have h1 : i + 1 + rest.length = i + (rest.length + 1) := by omega
    rw [h1]

theorem matchIndicesFrom_nil_of (records : List Rec) (attr : Str) (v : Val) (i : Nat)
    (h : ∀ r ∈ records, pyEq (getattrD r attr) v = false) :
    matchIndicesFrom i records attr v = [] := by
  induction records generalizing i with
  | nil => rfl
  | cons rec rest ih =>
    have h0 := h rec (List.mem_cons_self _ _)
    have ht := ih (i + 1) fun r hr => h r (List.mem_cons_of_mem _ hr)
    simp [matchIndicesFrom, h0, ht]

theorem matchIndicesFrom_mem_lt (records : List Rec) (attr : Str) (v : Val)
    (i j : Nat) (h : j ∈ matchIndicesFrom i records attr v) :
    j < i + records.length := by
  induction records generalizing i with
  | nil => simp [matchIndicesFrom] at h
  | cons rec rest ih =>
    simp only [matchIndicesFrom, List.mem_append] at h
    rcases h with h | h
    · by_cases hb : pyEq (getattrD rec attr) v = true
      · simp only [if_pos hb, List.mem_singleton] at h
        subst h
        simp only [List.length_cons]
        omega
      · simp [hb] at h
    · have := ih (i + 1) h
      simp only [List.length_cons]
      omega

/-- Key configs whose type the value does not match are skipped without
being consulted. -/
theorem resolveAux_skip (records : List Rec) (v : Val) (pre cfgs : List KeyConfig)
    (h : ∀ c ∈ pre, isinstance v c.expected_type = false) :
    resolveIndexByKeyAux records v (pre ++ cfgs) = resolveIndexByKeyAux records v cfgs := by
  induction pre with
  | nil => rfl
  | cons c rest ih =>
    simp only [List.cons_append, resolveIndexByKeyAux, h c (List.mem_cons_self _ _),
      Bool.false_eq_true, if_false]
    exact ih fun d hd => h d (List.mem_cons_of_mem _ hd)

theorem resolve_index_lt (reg : Registry) (k : Val) (i : Nat)
    (h : resolve_index reg k = .ok i) : i < reg.records.length := by
  unfold resolve_index at h
  cases hk : k.toIntVal with
  | some n =>
    rw [hk] at h
    by_cases hr : n < 0 ∨ (reg.records.length : Int) ≤ n
    · simp [if_pos hr] at h
    · simp only [if_neg hr] at h
      cases h
      push_neg at hr
      omega
  | none =>
    rw [hk] at h
    cases hby : resolve_index_by_key reg k with
    | error e => simp [hby] at h
    | ok o =>
      cases o with
      | none => simp [hby] at h
      | some j =>
        simp only [hby] at h
        cases h
        unfold resolve_index_by_key at hby
        generalize hcfgs : reg.key_configs = cfgs at hby
        clear hcfgs
        induction cfgs with
        | nil => simp [resolveIndexByKeyAux] at hby
        | cons cfg rest ih =>
          simp only [resolveIndexByKeyAux] at hby
          by_cases hin : isinstance k cfg.expected_type
          · simp only [if_pos hin] at hby
            cases hms : matchIndicesFrom 0 reg.records cfg.attr_name k with
            | nil => rw [hms] at hby; simp at hby
            | cons m tail =>
              rw [hms] at hby
              cases tail with
              | nil =>
                simp at hby
                have hmem : m ∈ matchIndicesFrom 0 reg.records cfg.attr_name k := by
                  rw [hms]
                  exact List.mem_cons_self _ _
                have := matchIndicesFrom_mem_lt _ _ _ _ _ hmem
                omega
              | cons b t => simp at hby
          · simp only [if_neg hin] at hby
            exact ih hby

theorem appendList_cons_ok (reg : Registry) (r : Rec) (rs : List Rec)
    (h : check_uniqueness reg r none = .ok ()) :
    appendList reg (r :: rs) = appendList { reg with records := reg.records ++ [r] } rs := by
  simp only [appendList, h]

theorem mapResolve_ok (reg : Registry) (ks : List Val) (is : List Nat)
    (h : mapResolve reg ks = .ok is) :
    is.length = ks.length ∧ ∀ i ∈ is, i < reg.records.length := by
  induction ks generalizing is with
  | nil =>
    simp only [mapResolve] at h
    cases h
    simp
  | cons k rest ih =>
    simp only [mapResolve] at h
    cases hk : resolve_index reg k with
    | error e => simp [hk] at h
    | ok i =>
      rw [hk] at h
      cases hrest : mapResolve reg rest with
      | error e => simp [hrest] at h
      | ok tail =>
        rw [hrest] at h
        cases h
        obtain ⟨hlen, hmem⟩ := ih tail hrest
        refine ⟨by simp [hlen], ?_⟩
        intro j hj
        rcases List.mem_cons.mp hj with rfl | hj
        · exact resolve_index_lt reg k j hk
        · exact hmem j hj



/-!
Concrete fixtures used by witnesses and counterexamples.
-/

/-- A string-typed key declaration over the `name` attribute. -/
def cfgNames : KeyConfig :=
  { prop_name := "names".toList, attr_name := "name".toList, expected_type := Ty.str }

/-- An identifier-typed (UUID) key declaration over the `id` attribute. -/
def cfgIds : KeyConfig :=
  { prop_name := "ids".toList, attr_name := "id".toList, expected_type := Ty.uuid }

/-- A second identifier-typed (UUID) key declaration over the `token` attribute. -/
def cfgTokens : KeyConfig :=
  { prop_name := "tokens".toList, attr_name := "token".toList, expected_type := Ty.uuid }

/-- An int-typed key declaration over the `age` attribute. -/
def cfgAges : KeyConfig :=
  { prop_name := "ages".toList, attr_name := "age".toList, expected_type := Ty.int }

/-- Sample records. -/
def recAlice : Rec := [("name".toList, Val.str ("Alice".toList)), ("id".toList, Val.uuid 1)]

/-- Sample records. -/
def recBob : Rec := [("name".toList, Val.str ("Bob".toList)), ("id".toList, Val.uuid 2)]

/-- Sample records. -/
def recCara : Rec := [("name".toList, Val.str ("Cara".toList)), ("id".toList, Val.uuid 3)]

/-- A record with an int-typed `age` attribute. -/
def recAge5 : Rec := [("age".toList, Val.int 5)]

/-- A registry with a string key and a UUID key holding Alice and Bob. -/
def regAB : Registry := { key_configs := [cfgNames, cfgIds], records := [recAlice, recBob] }

/-!
Claim theorems.
-/

/-- C10: a key whose runtime type is `int` — bools included, since `bool`
subclasses `int` — is treated as a raw position into the record store,
validated against `0 <= key < len(records)`, and resolution of such keys
does not depend on the key declarations at all, so int-typed declared
keys are unreachable through the resolve path. -/
theorem int_positional_precedence (reg : Registry) (v : Val) (n : Int)
    (cfgs : List KeyConfig) (h : v.toIntVal = some n) :
    resolve_index reg v =
      (if n < 0 ∨ (reg.records.length : Int) ≤ n then .error (.indexOutOfRange n)
       else .ok n.toNat)
    ∧ resolve_index { key_configs := cfgs, records := reg.records } v
        = resolve_index reg v := by
  constructor
  · unfold resolve_index
    rw [h]
  · unfold resolve_index
    rw [h]

theorem int_positional_precedence_witness :
    resolve_index regAB (Val.bool true) =
      (if (1 : Int) < 0 ∨ (regAB.records.length : Int) ≤ 1
       then .error (.indexOutOfRange 1) else .ok (Int.toNat 1))
    ∧ resolve_index { key_configs := [cfgAges], records := regAB.records } (Val.bool true)
        = resolve_index regAB (Val.bool true) :=
  int_positional_precedence regAB (Val.bool true) 1 [cfgAges] (by decide)

/-- C9: indexing with a list of keys yields a bare single record exactly
when one key was supplied, the empty list for an empty key list, and a
list of records (one per key) for two or more keys. -/
theorem keyed_read_shape (reg : Registry) (ks : List Val) (res : GetResult)
    (h : getitem reg (KeyArg.many ks) = .ok res) :
    (ks = [] → res = .multiple [])
    ∧ (ks.length = 1 → ∃ r, res = .single r)
    ∧ (2 ≤ ks.length → ∃ rs, res = .multiple rs ∧ rs.length = ks.length) := by
  unfold getitem resolve_indices at h
  cases hm : mapResolve reg (ensureListKey (KeyArg.many ks)) with
  | error e =>
    simp [hm] at h
  | ok indices =>
    simp only [hm] at h
    have hlen := (mapResolve_ok reg ks indices (by simpa [ensureListKey] using hm)).1
    by_cases h1 : indices.length = 1
    · rw [if_pos h1] at h
      injection h with h
      subst h
      refine ⟨fun hk => ?_, fun _ => ⟨_, rfl⟩, fun hk => ?_⟩
      · subst hk
        rw [h1] at hlen
        simp at hlen
      · rw [hlen] at h1
        omega
    · rw [if_neg h1] at h
      injection h with h
      subst h
      refine ⟨fun hk => ?_, fun hk => ?_, fun hk => ?_⟩
      · subst hk
        simp only [List.length_nil] at hlen
        rw [List.length_eq_zero.mp hlen]
        rfl
      · rw [hk] at hlen; exact absurd hlen h1
      · exact ⟨_, rfl, by simp [hlen]⟩

theorem keyed_read_shape_witness :
    ([Val.int 0] = [] → GetResult.single recAlice = .multiple [])
    ∧ ([Val.int 0].length = 1 → ∃ r, GetResult.single recAlice = .single r)
    ∧ (2 ≤ [Val.int 0].length →
        ∃ rs, GetResult.single recAlice = .multiple rs ∧ rs.length = [Val.int 0].length) :=
  keyed_read_shape regAB [Val.int 0] (.single recAlice) (by decide)

/-- C5: `resolve_index_by_key` consults only the first key declaration in
schema order whose `expected_type` matches the value's runtime type: the
result equals resolution against that single declaration alone, whatever
the later declarations are and even when the first match yields no
record. -/
theorem first_match_scoping (reg : Registry) (v : Val) (pre : List KeyConfig)
    (cfg : KeyConfig) (post : List KeyConfig)
    (hcfg : reg.key_configs = pre ++ cfg :: post)
    (hpre : ∀ c ∈ pre, isinstance v c.expected_type = false)
    (hmatch : isinstance v cfg.expected_type = true) :
    resolve_index_by_key reg v = resolveIndexByKeyAux reg.records v [cfg] := by
  unfold resolve_index_by_key
  rw [hcfg, resolveAux_skip reg.records v pre (cfg :: post) hpre]
  simp only [resolveIndexByKeyAux, if_pos hmatch]

/-- A registry with two identifier-typed key declarations; the `token`
attribute of its only record holds UUID 9, but lookups for UUID 9 only
consult the first (`id`) declaration. -/
def regTwoUuid : Registry :=
  { key_configs := [cfgIds, cfgTokens],
    records := [[("id".toList, Val.uuid 1), ("token".toList, Val.uuid 9)]] }

theorem first_match_scoping_witness :
    resolve_index_by_key regTwoUuid (Val.uuid 9)
      = resolveIndexByKeyAux regTwoUuid.records (Val.uuid 9) [cfgIds] :=
  first_match_scoping regTwoUuid (Val.uuid 9) [] cfgIds [cfgTokens] rfl
    (by intro c hc; simp at hc) (by decide)

/-- C2: with an identifier-typed key declaration first in schema order
(and an all-identifier schema, so that no unrelated non-identifier key
can independently reject), appending two records with equal UUID values
at its source attribute succeeds with no `DuplicateKeyError`, and a
subsequent lookup by that shared value raises `AmbiguousKeyError`. -/
theorem identifier_exemption (reg : Registry) (cfg0 : KeyConfig) (rest : List KeyConfig)
    (r1 r2 : Rec) (u : Nat)
    (hcfg : reg.key_configs = cfg0 :: rest)
    (huuid : ∀ cfg ∈ reg.key_configs, cfg.expected_type = Ty.uuid)
    (h1 : getattrD r1 cfg0.attr_name = Val.uuid u)
    (h2 : getattrD r2 cfg0.attr_name = Val.uuid u) :
    appendList reg [r1, r2] = ({ reg with records := reg.records ++ [r1, r2] }, none)
    ∧ resolve_index_by_key { reg with records := reg.records ++ [r1, r2] } (Val.uuid u)
        = .error (.ambiguousKey (Val.uuid u)) := by
  have hck1 : check_uniqueness reg r1 none = .ok () :=
    checkUniquenessAux_all_uuid _ _ _ _ huuid
  have hck2 : check_uniqueness { reg with records := reg.records ++ [r1] } r2 none
      = .ok () :=
    checkUniquenessAux_all_uuid _ _ _ _ huuid
  constructor
  · rw [appendList_cons_ok reg r1 [r2] hck1, appendList_cons_ok _ r2 [] hck2]
    simp [appendList]
  · unfold resolve_index_by_key
    have hcfg' : ({ reg with records := reg.records ++ [r1, r2] } : Registry).key_configs
        = cfg0 :: rest := hcfg
    rw [hcfg']
    have hin : isinstance (Val.uuid u) cfg0.expected_type = true := by
      rw [huuid cfg0 (by rw [hcfg]; exact List.mem_cons_self _ _)]
      rfl
    simp only [resolveIndexByKeyAux, if_pos hin]
    have hidx : matchIndicesFrom 0
          (({ reg with records := reg.records ++ [r1, r2] } : Registry).records)
          cfg0.attr_name (Val.uuid u)
        = matchIndicesFrom 0 reg.records cfg0.attr_name (Val.uuid u)
          ++ [reg.records.length, reg.records.length + 1] := by
      show matchIndicesFrom 0 (reg.records ++ [r1, r2]) cfg0.attr_name (Val.uuid u) = _
      rw [matchIndicesFrom_append]
      congr 1
      simp [matchIndicesFrom, h1, h2, pyEq_refl]
    rw [hidx]
    cases hms : matchIndicesFrom 0 reg.records cfg0.attr_name (Val.uuid u) with
    | nil => simp
    | cons m t => simp [List.length_append]

/-- A registry whose only key declaration is identifier-typed. -/
def regUuidOnly : Registry := { key_configs := [cfgIds], records := [] }

/-- Two records sharing the UUID value 7 at `id`. -/
def recU7a : Rec := [("id".toList, Val.uuid 7), ("name".toList, Val.str ("A".toList))]

/-- Two records sharing the UUID value 7 at `id`. -/
def recU7b : Rec := [("id".toList, Val.uuid 7), ("name".toList, Val.str ("B".toList))]

theorem identifier_exemption_witness :
    appendList regUuidOnly [recU7a, recU7b]
      = ({ regUuidOnly with records := regUuidOnly.records ++ [recU7a, recU7b] }, none)
    ∧ resolve_index_by_key
        { regUuidOnly with records := regUuidOnly.records ++ [recU7a, recU7b] }
        (Val.uuid 7) = .error (.ambiguousKey (Val.uuid 7)) :=
  identifier_exemption regUuidOnly cfgIds [] recU7a recU7b 7 rfl (by decide)
    (by decide) (by decide)

/-- C7: `append` processes records in argument order, checking each record
before writing it: a fully successful batch appends everything in order,
and a failing batch stops at the first duplicate, leaving exactly the
earlier records appended and the failing record (checked against that
partial state) unwritten. -/
theorem append_partial_effect (rs : List Rec) (reg reg' : Registry) :
    (appendList reg rs = (reg', none) →
      reg'.key_configs = reg.key_configs ∧ reg'.records = reg.records ++ rs)
    ∧ ∀ e, appendList reg rs = (reg', some e) →
      ∃ pre r post, rs = pre ++ r :: post
        ∧ reg'.key_configs = reg.key_configs
        ∧ reg'.records = reg.records ++ pre
        ∧ appendList reg pre = (reg', none)
        ∧ check_uniqueness reg' r none = .error e := by
  induction rs generalizing reg with
  | nil =>
    constructor
    · intro h
      simp only [appendList] at h
      injection h with h1 h2
      subst h1
      exact ⟨rfl, by simp⟩
    · intro e h
      simp only [appendList] at h
      injection h with h1 h2
      exact Option.noConfusion h2
  | cons r rest ih =>
    constructor
    · intro h
      simp only [appendList] at h
      cases hck : check_uniqueness reg r none with
      | error e =>
        rw [hck] at h
        injection h with h1 h2
        exact Option.noConfusion h2
      | ok u =>
        cases u
        rw [hck] at h
        obtain ⟨hk, hr⟩ := (ih _).1 h
        refine ⟨hk, ?_⟩
        rw [hr]
        simp
    · intro e h
      simp only [appendList] at h
      cases hck : check_uniqueness reg r none with
      | error e' =>
        rw [hck] at h
        injection h with h1 h2
        injection h2 with h2
        subst h1
        subst h2
        exact ⟨[], r, rest, by simp, rfl, by simp, by simp [appendList], hck⟩
      | ok u =>
        cases u
        rw [hck] at h
        obtain ⟨pre, rr, post, hrs, hk, hrec, happ, hchk⟩ := (ih _).2 e h
        refine ⟨r :: pre, rr, post, by rw [hrs]; rfl, hk, ?_, ?_, hchk⟩
        · rw [hrec]
          simp
        · rw [appendList_cons_ok reg r pre hck]
          exact happ

theorem append_partial_effect_witness :
    ∃ pre r post, [recAlice, recAlice, recBob] = pre ++ r :: post
      ∧ (({ key_configs := [cfgNames], records := [recAlice] } : Registry)).key_configs
          = (({ key_configs := [cfgNames], records := [] } : Registry)).key_configs
      ∧ (({ key_configs := [cfgNames], records := [recAlice] } : Registry)).records
          = (({ key_configs := [cfgNames], records := [] } : Registry)).records ++ pre
      ∧ appendList { key_configs := [cfgNames], records := [] } pre
          = ({ key_configs := [cfgNames], records := [recAlice] }, none)
      ∧ check_uniqueness { key_configs := [cfgNames], records := [recAlice] } r none
          = .error (.duplicateKey ("names".toList) (Val.str ("Alice".toList))) :=
  (append_partial_effect [recAlice, recAlice, recBob]
      { key_configs := [cfgNames], records := [] }
      { key_configs := [cfgNames], records := [recAlice] }).2
    (.duplicateKey ("names".toList) (Val.str ("Alice".toList))) (by decide)

/-!
Lemmas about `endswith` on decomposed words, for the pluralization rules.
-/

theorem endswith_one (u : Str) (c d : Char) :
    endswith (u ++ [c]) [d] = (d == c) := by
  simp [endswith, List.isPrefixOf, List.reverse_append]

theorem endswith_one_of_two (u : Str) (c1 c2 d : Char) :
    endswith (u ++ [c1, c2]) [d] = (d == c2) := by
  have : u ++ [c1, c2] = (u ++ [c1]) ++ [c2] := by simp
  rw [this, endswith_one]

theorem endswith_two (u : Str) (c1 c2 d1 d2 : Char) :
    endswith (u ++ [c1, c2]) [d1, d2] = ((d2 == c2) && (d1 == c1)) := by
  have : u ++ [c1, c2] = (u ++ [c1]) ++ [c2] := by simp
  rw [this]
  simp [endswith, List.isPrefixOf, List.reverse_append, Bool.and_comm]

theorem endswith_two_of_one (u : Str) (c d1 d2 : Char) :
    endswith (u ++ [c]) [d1, d2] = ((d2 == c) && endswith u [d1]) := by
  simp [endswith, List.isPrefixOf, List.reverse_append]

theorem charFromEnd_two (u : Str) (c1 c2 : Char) :
    charFromEnd (u ++ [c1, c2]) 1 = c1 := by
  have : u ++ [c1, c2] = (u ++ [c1]) ++ [c2] := by simp
  rw [this]
  simp [charFromEnd, List.reverse_append]

/-- C4 (amended): `pluralize` applies its four rules in order — a word
already ending in `s` is returned unchanged (so `bus` stays `bus`), a
trailing `y` whose preceding character is not a vowel (case-insensitively;
the character need not be a consonant) becomes `ies` when the word is
longer than one character, endings `sh`/`ch`/`x`/`z` get `es` appended,
and otherwise `s` is appended; in particular `category` maps to
`categories`, `box` to `boxes`, and `id` to `ids`. -/
theorem pluralize_rules :
    (∀ u : Str, pluralize (u ++ ("s".toList)) = u ++ ("s".toList))
    ∧ (∀ (u : Str) (c : Char), isVowel c = false →
        pluralize (u ++ [c, 'y']) = (u ++ [c]) ++ ("ies".toList))
    ∧ (∀ u : Str, pluralize (u ++ ("sh".toList)) = (u ++ ("sh".toList)) ++ ("es".toList))
    ∧ (∀ u : Str, pluralize (u ++ ("ch".toList)) = (u ++ ("ch".toList)) ++ ("es".toList))
    ∧ (∀ u : Str, endswith u ("s".toList) = false →
        pluralize (u ++ ("x".toList)) = (u ++ ("x".toList)) ++ ("es".toList))
    ∧ (∀ u : Str, endswith u ("s".toList) = false →
        pluralize (u ++ ("z".toList)) = (u ++ ("z".toList)) ++ ("es".toList))
    ∧ (∀ w : Str, endswith w ("s".toList) = false →
        (endswith w ("y".toList) && decide (1 < w.length)
          && !(isVowel (charFromEnd w 1))) = false →
        (endswith w ("sh".toList) || endswith w ("ch".toList)
          || endswith w ("x".toList) || endswith w ("z".toList)) = false →
        pluralize w = w ++ ("s".toList))
    ∧ pluralize ("category".toList) = ("categories".toList)
    ∧ pluralize ("box".toList) = ("boxes".toList)
    ∧ pluralize ("id".toList) = ("ids".toList)
    ∧ pluralize ("bus".toList) = ("bus".toList) := by
  refine ⟨?_, ?_, ?_, ?_, ?_, ?_, ?_, by decide, by decide, by decide, by decide⟩
  · intro u
    unfold pluralize
    rw [show ("s".toList : Str) = ['s'] from rfl, endswith_one]
    simp
  · intro u c hc
    unfold pluralize
    rw [show ("s".toList : Str) = ['s'] from rfl, show ("y".toList : Str) = ['y'] from rfl,
      endswith_one_of_two, endswith_one_of_two, charFromEnd_two, hc]
    have hlen : (1 : Nat) < (u ++ [c, 'y']).length := by
      simp [List.length_append]
    have hdrop : (u ++ [c, 'y']).dropLast = u ++ [c] := by
      have : u ++ [c, 'y'] = (u ++ [c]) ++ ['y'] := by simp
      rw [this, List.dropLast_concat]
    simp [hlen, hdrop]
  · intro u
    unfold pluralize
    rw [show ("sh".toList : Str) = ['s', 'h'] from rfl,
      show ("s".toList : Str) = ['s'] from rfl, show ("y".toList : Str) = ['y'] from rfl]
    rw [endswith_one_of_two, endswith_one_of_two, endswith_two]
    simp
  · intro u
    unfold pluralize
    rw [show ("sh".toList : Str) = ['s', 'h'] from rfl,
      show ("ch".toList : Str) = ['c', 'h'] from rfl,
      show ("s".toList : Str) = ['s'] from rfl, show ("y".toList : Str) = ['y'] from rfl]
    rw [endswith_one_of_two, endswith_one_of_two, endswith_two, endswith_two]
    simp
  · intro u hu
    unfold pluralize
    rw [show ("sh".toList : Str) = ['s', 'h'] from rfl,
      show ("ch".toList : Str) = ['c', 'h'] from rfl,
      show ("x".toList : Str) = ['x'] from rfl,
      show ("s".toList : Str) = ['s'] from rfl, show ("y".toList : Str) = ['y'] from rfl]
    rw [endswith_one, endswith_one, endswith_one, endswith_two_of_one, endswith_two_of_one]
    simp
  · intro u hu
    unfold pluralize
    rw [show ("sh".toList : Str) = ['s', 'h'] from rfl,
      show ("ch".toList : Str) = ['c', 'h'] from rfl,
      show ("x".toList : Str) = ['x'] from rfl,
      show ("z".toList : Str) = ['z'] from rfl,
      show ("s".toList : Str) = ['s'] from rfl, show ("y".toList : Str) = ['y'] from rfl]
    rw [endswith_one, endswith_one, endswith_one, endswith_one, endswith_two_of_one,
      endswith_two_of_one]
    simp
  · intro w h1 h2 h3
    unfold pluralize
    rw [h1, h2, h3]
    simp

theorem pluralize_rules_witness :
    pluralize ("bu".toList ++ ("s".toList)) = "bu".toList ++ ("s".toList)
    ∧ pluralize ("f".toList ++ ['l', 'y']) = ("f".toList ++ ['l']) ++ ("ies".toList) :=
  ⟨pluralize_rules.1 ("bu".toList), pluralize_rules.2.1 ("f".toList) 'l' (by decide)⟩

/-- C4 counterexample: the claim asserts `pluralize "bus" = "buses"`, but
a word already ending in `s` is returned unchanged, so `pluralize "bus"`
is `"bus"`; and the claim's rule 2 requires a consonant before the
trailing `y`, yet `pluralize "a2y"` is `"a2ies"` although `'2'` is not a
letter (the code only excludes vowels). -/
theorem pluralize_bus_cex :
    pluralize ("bus".toList) = ("bus".toList)
    ∧ ("bus".toList : Str) ≠ ("buses".toList)
    ∧ pluralize ("a2y".toList) = ("a2ies".toList)
    ∧ Char.isAlpha '2' = false
    ∧ ("a2ies".toList : Str) ≠ ("a2ys".toList) := by
  refine ⟨by decide, by decide, by decide, by decide, by decide⟩

/-- Lookup in an association list all of whose entries at `key` carry the
same value `a`, with at least one entry at `key`, yields `some a`. -/
theorem lookup_all_same (ps : List (Str × Str)) (key a : Str)
    (hex : ∃ p ∈ ps, p.1 = key)
    (hall : ∀ p ∈ ps, p.1 = key → p.2 = a) :
    ps.lookup key = some a := by
  induction ps with
  | nil => simp at hex
  | cons p rest ih =>
    obtain ⟨k, v⟩ := p
    by_cases hk : key = k
    · have hv : v = a := hall (k, v) (List.mem_cons_self _ _) hk.symm
      have hb : (key == k) = true := beq_iff_eq.mpr hk
      simp [List.lookup, hb, hv]
    · have hex' : ∃ p ∈ rest, p.1 = key := by
        obtain ⟨q, hq, hq1⟩ := hex
        rcases List.mem_cons.mp hq with rfl | hq
        · exact absurd hq1.symm hk
        · exact ⟨q, hq, hq1⟩
      have hrec := ih hex' fun q hq hq1 => hall q (List.mem_cons_of_mem _ hq) hq1
      have hb : (key == k) = false := by
        simpa using hk
      simpa [List.lookup, hb] using hrec

/-- C3 (amended): for a non-empty registry, accessing the pluralized form
of an attribute of the element type (the first record's attribute set,
standing for the type's fields) returns the ordered list of that
attribute's values across all records in store order, provided no other
attribute pluralizes to the same name; for an empty registry the record
type cannot be determined and the access raises `AttributeError` instead
of returning the empty list. -/
theorem projection_access :
    (∀ (reg : Registry) (r0 : Rec) (rest : List Rec) (a : Str),
      reg.records = r0 :: rest →
      a ∈ r0.map Prod.fst →
      (∀ b ∈ r0.map Prod.fst, pluralize b = pluralize a → b = a) →
      dynamic_getattr reg (pluralize a)
        = some (reg.records.map fun rec => getattrD rec a))
    ∧ (∀ (reg : Registry) (name : Str), reg.records = [] →
        dynamic_getattr reg name = none) := by
  constructor
  · intro reg r0 rest a hrec ha hinj
    unfold dynamic_getattr
    rw [hrec]
    have hlk : (((r0.map Prod.fst).map fun b => (pluralize b, b)).reverse.lookup
        (pluralize a)) = some a := by
      apply lookup_all_same
      · refine ⟨(pluralize a, a), ?_, rfl⟩
        rw [List.mem_reverse]
        exact List.mem_map.mpr ⟨a, ha, rfl⟩
      · intro p hp hp1
        rw [List.mem_reverse] at hp
        obtain ⟨b, hb, rfl⟩ := List.mem_map.mp hp
        exact hinj b hb hp1
    simp only [hlk]
  · intro reg name hrec
    unfold dynamic_getattr
    rw [hrec]

theorem projection_access_witness :
    dynamic_getattr regAB (pluralize ("name".toList))
      = some (regAB.records.map fun rec => getattrD rec ("name".toList)) :=
  projection_access.1 regAB recAlice [recBob] ("name".toList) rfl (by decide) (by decide)

/-- C3 counterexample: on a registry holding no records, accessing the
pluralized attribute name `names` yields an `AttributeError` (`none`),
not the empty list the claim requires; and the plural-to-attribute
mapping is not total on attributes: with attributes `id` and `ids`, both
pluralize to `ids` and the later attribute shadows the earlier one, so
accessing `ids` returns the `ids` column rather than the `id` column. -/
theorem projection_access_cex :
    dynamic_getattr { key_configs := [cfgNames], records := [] } ("names".toList) = none
    ∧ (none : Option (List Val)) ≠ some []
    ∧ dynamic_getattr
        { key_configs := [],
          records := [[("id".toList, Val.uuid 1), ("ids".toList, Val.str ("x".toList))]] }
        ("ids".toList) = some [Val.str ("x".toList)]
    ∧ some [Val.str ("x".toList)] ≠ some [Val.uuid 1] := by
  refine ⟨by decide, by decide, by decide, by decide⟩

/-- C8 (amended): after a successful `append(r)`, looking the registry up
(via `__getitem__`) by `r`'s value at a non-identifier key's source
attribute returns `r` itself — provided that value's runtime type is not
int/bool (such values are intercepted as raw positions before key
resolution) and the key declaration is the first in schema order whose
type the value matches. Uniqueness of the value in the store follows from
the append's own uniqueness check. -/
theorem append_roundtrip (reg reg' : Registry) (r : Rec) (pre post : List KeyConfig)
    (cfg : KeyConfig)
    (hcfg : reg.key_configs = pre ++ cfg :: post)
    (hnu : cfg.expected_type ≠ Ty.uuid)
    (hpre : ∀ c ∈ pre, isinstance (getattrD r cfg.attr_name) c.expected_type = false)
    (hin : isinstance (getattrD r cfg.attr_name) cfg.expected_type = true)
    (hni : (getattrD r cfg.attr_name).toIntVal = none)
    (happ : appendList reg [r] = (reg', none)) :
    getitem reg' (KeyArg.one (getattrD r cfg.attr_name)) = .ok (.single r) := by
  simp only [appendList] at happ
  cases hck : check_uniqueness reg r none with
  | error e =>
    rw [hck] at happ
    injection happ with h1 h2
    exact Option.noConfusion h2
  | ok u =>
    cases u
    rw [hck] at happ
    injection happ with h1 h2
    subst h1
    have hmem : cfg ∈ reg.key_configs := by
      rw [hcfg]
      exact List.mem_append.mpr (Or.inr (List.mem_cons_self _ _))
    have hcol := (checkUniquenessAux_ok_iff reg.records r none reg.key_configs).mp
      hck cfg hmem hnu
    have hold : matchIndicesFrom 0 reg.records cfg.attr_name (getattrD r cfg.attr_name)
        = [] :=
      matchIndicesFrom_nil_of _ _ _ _
        ((collidesFrom_none_false_iff reg.records cfg.attr_name _ 0).mp hcol)
    have hm : matchIndicesFrom 0 (reg.records ++ [r]) cfg.attr_name
        (getattrD r cfg.attr_name) = [reg.records.length] := by
      rw [matchIndicesFrom_append, hold]
      simp [matchIndicesFrom, pyEq_refl]
    have hrbk : resolve_index_by_key
        { reg with records := reg.records ++ [r] } (getattrD r cfg.attr_name)
        = .ok (some reg.records.length) := by
      unfold resolve_index_by_key
      show resolveIndexByKeyAux (reg.records ++ [r]) _ reg.key_configs = _
      rw [hcfg, resolveAux_skip _ _ _ _ hpre]
      simp only [resolveIndexByKeyAux, if_pos hin, hm]
      simp
    have hri : resolve_index { reg with records := reg.records ++ [r] }
        (getattrD r cfg.attr_name) = .ok reg.records.length := by
      unfold resolve_index
      rw [hni, hrbk]
    unfold getitem resolve_indices
    have hg : (reg.records ++ [r]).getD reg.records.length [] = r := by
      rw [listGetD_append_len]
      rfl
    simp only [ensureListKey, mapResolve, hri]
    simp [hg]

theorem append_roundtrip_witness :
    getitem { key_configs := [cfgNames, cfgIds], records := [] ++ [recAlice] }
      (KeyArg.one (getattrD recAlice cfgNames.attr_name)) = .ok (.single recAlice) :=
  append_roundtrip { key_configs := [cfgNames, cfgIds], records := [] }
    { key_configs := [cfgNames, cfgIds], records := [] ++ [recAlice] }
    recAlice [] [cfgIds] cfgNames rfl (by decide) (by intro c hc; simp at hc)
    (by decide) (by decide) (by decide)

/-- C8 counterexample: with an int-typed key declaration over `age`,
appending `{age: 5}` to an empty registry succeeds, but looking up by the
key value `5` does not return the record: `__getitem__` intercepts the
int as a raw position and raises `IndexError`, so int-typed declared keys
cannot be used for value lookup. -/
theorem append_roundtrip_int_cex :
    appendList { key_configs := [cfgAges], records := [] } [recAge5]
      = ({ key_configs := [cfgAges], records := [recAge5] }, none)
    ∧ getattrD recAge5 ("age".toList) = Val.int 5
    ∧ getitem { key_configs := [cfgAges], records := [recAge5] } (KeyArg.one (Val.int 5))
        = .error (.indexOutOfRange 5)
    ∧ (Except.error (.indexOutOfRange 5) : Except RegError GetResult)
        ≠ .ok (.single recAge5) := by
  refine ⟨by decide, by decide, by decide, by decide⟩

/-!
Preservation of the uniqueness invariant.
-/

theorem listGetD_mem (l : List Rec) (d : Rec) (i : Nat) (h : i < l.length) :
    l.getD i d ∈ l := by
  induction l generalizing i with
  | nil => simp at h
  | cons a t ih =>
    cases i with
    | zero => exact List.mem_cons_self _ _
    | succ j => exact List.mem_cons_of_mem _ (ih j (by simpa using h))

theorem attrUnique_append (records : List Rec) (r : Rec) (attr : Str)
    (hu : attrUnique records attr)
    (hnc : ∀ rec ∈ records, pyEq (getattrD rec attr) (getattrD r attr) = false) :
    attrUnique (records ++ [r]) attr := by
  intro i j hi hj hij
  simp only [List.length_append, List.length_singleton] at hi hj
  by_cases hi' : i < records.length
  · by_cases hj' : j < records.length
    · rw [listGetD_append_lt _ _ _ _ hi', listGetD_append_lt _ _ _ _ hj']
      exact hu i j hi' hj' hij
    · have hj'' : j = records.length := by omega
      subst hj''
      rw [listGetD_append_lt _ _ _ _ hi', listGetD_append_len]
      exact hnc _ (listGetD_mem _ _ _ hi')
  · have hi'' : i = records.length := by omega
    subst hi''
    have hj' : j < records.length := by omega
    rw [listGetD_append_lt _ _ _ _ hj', listGetD_append_len]
    rw [pyEq_comm]
    exact hnc _ (listGetD_mem _ _ _ hj')

theorem uniqueInv_append_one (reg : Registry) (r : Rec)
    (hinv : uniqueInv reg) (hck : check_uniqueness reg r none = .ok ()) :
    uniqueInv { reg with records := reg.records ++ [r] } := by
  intro cfg hc hnu
  have hcol := (checkUniquenessAux_ok_iff _ _ _ _).mp hck cfg hc hnu
  have hnc := (collidesFrom_none_false_iff reg.records cfg.attr_name _ 0).mp hcol
  exact attrUnique_append _ _ _ (hinv cfg hc hnu) hnc

theorem attrUnique_set (records : List Rec) (val : Rec) (attr : Str) (i : Nat)
    (hu : attrUnique records attr)
    (hnc : ∀ j, j < records.length → j ≠ i →
      pyEq (getattrD (records.getD j []) attr) (getattrD val attr) = false) :
    attrUnique (records.set i val) attr := by
  by_cases hlen : i < records.length
  · intro a b ha hb hab
    rw [List.length_set] at ha hb
    by_cases hai : a = i
    · subst hai
      have hbi : b ≠ a := fun h => hab h.symm
      rw [listGetD_set_self _ _ _ _ hlen, listGetD_set_ne _ _ _ _ _ hab]
      rw [pyEq_comm]
      exact hnc b hb (fun h => hab (h.symm))
    · by_cases hbi : b = i
      · subst hbi
        rw [listGetD_set_self _ _ _ _ hlen,
          listGetD_set_ne _ _ _ _ _ (fun h => hab h.symm)]
        exact hnc a ha hai
      · rw [listGetD_set_ne _ _ _ _ _ (fun h => hbi h.symm),
          listGetD_set_ne _ _ _ _ _ (fun h => hai h.symm)]
        exact hu a b ha hb hab
  · rw [listSet_oob _ _ _ (Nat.le_of_not_lt hlen)]
    exact hu

theorem attrUniqueAll_set (configs : List KeyConfig) (records : List Rec) (val : Rec)
    (i : Nat)
    (hinv : ∀ cfg ∈ configs, cfg.expected_type ≠ Ty.uuid →
      attrUnique records cfg.attr_name)
    (hck : checkUniquenessAux records val (some i) configs = .ok ()) :
    ∀ cfg ∈ configs, cfg.expected_type ≠ Ty.uuid →
      attrUnique (records.set i val) cfg.attr_name := by
  intro cfg hc hnu
  have hcol := (checkUniquenessAux_ok_iff _ _ _ _).mp hck cfg hc hnu
  have hnc := (collidesFrom_some_false_iff records cfg.attr_name _ i 0).mp hcol
  refine attrUnique_set _ _ _ _ (hinv cfg hc hnu) ?_
  intro j hj hji
  exact hnc j hj (by omega)

theorem setitemLoop_preserves (configs : List KeyConfig) (pairs : List (Nat × Rec))
    (records rs : List Rec)
    (hinv : ∀ cfg ∈ configs, cfg.expected_type ≠ Ty.uuid →
      attrUnique records cfg.attr_name)
    (h : setitemLoop configs records pairs = (rs, none)) :
    ∀ cfg ∈ configs, cfg.expected_type ≠ Ty.uuid → attrUnique rs cfg.attr_name := by
  induction pairs generalizing records with
  | nil =>
    simp only [setitemLoop] at h
    injection h with h1 h2
    subst h1
    exact hinv
  | cons p rest ih =>
    obtain ⟨i, val⟩ := p
    simp only [setitemLoop] at h
    cases hck : checkUniquenessAux records val (some i) configs with
    | error e =>
      rw [hck] at h
      injection h with h1 h2
      exact Option.noConfusion h2
    | ok u =>
      cases u
      rw [hck] at h
      exact ih _ (attrUniqueAll_set configs records val i hinv hck) h

/-- C1 (amended): the uniqueness invariant — for every non-identifier key
declaration, no two stored records share a Python-equal value at its
source attribute — holds after construction with no initial records and
is preserved by every successful `append` batch and every successful
`replace` (`__setitem__`). Construction with a non-empty initial record
set does not validate those records, so the invariant is not guaranteed
at construction (see the counterexample). -/
theorem uniqueness_invariant_preserved :
    (∀ (cfgs : List KeyConfig) (reg : Registry),
      mkRegistry cfgs [] = some reg → uniqueInv reg)
    ∧ (∀ (reg reg' : Registry) (rs : List Rec),
        uniqueInv reg → appendList reg rs = (reg', none) → uniqueInv reg')
    ∧ (∀ (reg reg' : Registry) (k : KeyArg) (v : RecArg),
        uniqueInv reg → setitem reg k v = (reg', none) → uniqueInv reg') := by
  refine ⟨?_, ?_, ?_⟩
  · intro cfgs reg h
    unfold mkRegistry at h
    split at h
    · injection h with h
      subst h
      intro cfg hc hnu i j hi
      exact absurd hi (Nat.not_lt_zero i)
    · exact Option.noConfusion h
  · intro reg reg' rs
    induction rs generalizing reg with
    | nil =>
      intro hinv h
      simp only [appendList] at h
      injection h with h1 h2
      subst h1
      exact hinv
    | cons r rest ih =>
      intro hinv h
      simp only [appendList] at h
      cases hck : check_uniqueness reg r none with
      | error e =>
        rw [hck] at h
        injection h with h1 h2
        exact Option.noConfusion h2
      | ok u =>
        cases u
        rw [hck] at h
        exact ih _ (uniqueInv_append_one reg r hinv hck) h
  · intro reg reg' k v hinv h
    unfold setitem at h
    cases hri : resolve_indices reg k with
    | error e =>
      simp only [hri] at h
      injection h with h1 h2
      exact Option.noConfusion h2
    | ok indices =>
      simp only [hri] at h
      by_cases hlen : indices.length ≠ (ensureListRec v).length
      · rw [if_pos hlen] at h
        injection h with h1 h2
        exact Option.noConfusion h2
      · rw [if_neg hlen] at h
        cases hloop : setitemLoop reg.key_configs reg.records
            (indices.zip (ensureListRec v)) with
        | mk rs err =>
          rw [hloop] at h
          injection h with h1 h2
          subst h2
          subst h1
          intro cfg hc hnu
          exact setitemLoop_preserves reg.key_configs _ reg.records rs hinv hloop
            cfg hc hnu

theorem uniqueness_invariant_preserved_witness :
    uniqueInv { key_configs := [cfgNames, cfgIds], records := [recAlice] } :=
  uniqueness_invariant_preserved.2.1
    { key_configs := [cfgNames, cfgIds], records := [] }
    { key_configs := [cfgNames, cfgIds], records := [recAlice] }
    [recAlice]
    (fun cfg _ _ i _ hi _ _ => absurd hi (Nat.not_lt_zero i))
    (by decide)

/-- C1 counterexample: construction accepts an initial record set without
running the uniqueness check, so a registry can be born violating the
invariant: two copies of the same record pass `mkRegistry` under a
string-typed `name` key. -/
theorem uniqueness_invariant_construction_cex :
    mkRegistry [cfgNames] [recAlice, recAlice]
      = some { key_configs := [cfgNames], records := [recAlice, recAlice] }
    ∧ ¬ uniqueInv { key_configs := [cfgNames], records := [recAlice, recAlice] } := by
  constructor
  · decide
  · intro h
    have hx := h cfgNames (List.mem_cons_self _ _) (by decide) 0 1
      (by decide) (by decide) (by decide)
    exact absurd hx (by decide)

/-!
Lemmas about batched deletion.
-/

theorem removeIdxsFrom_high (k : Nat) (idxs : List Nat) (rs : List Rec)
    (h : ∀ j ∈ idxs, j < k) : removeIdxsFrom k idxs rs = rs := by
  induction rs generalizing k with
  | nil => rfl
  | cons a t ih =>
    have hk : k ∉ idxs := fun hm => absurd (h k hm) (Nat.lt_irrefl k)
    simp only [removeIdxsFrom, if_neg hk, List.singleton_append]
    rw [ih (k + 1) fun j hj => Nat.lt_succ_of_lt (h j hj)]

theorem removeIdxsFrom_append (xs ys : List Rec) (k : Nat) (idxs : List Nat) :
    removeIdxsFrom k idxs (xs ++ ys)
      = removeIdxsFrom k idxs xs ++ removeIdxsFrom (k + xs.length) idxs ys := by
  induction xs generalizing k with
  | nil => simp [removeIdxsFrom]
  | cons a t ih =>
    simp only [List.cons_append, removeIdxsFrom, List.append_eq, ih (k + 1),
      List.length_cons, List.append_assoc]
    have h1 : k + 1 + t.length = k + (t.length + 1) := by omega
    rw [h1]

theorem removeIdxsFrom_cons_high (k i : Nat) (rest : List Nat) (xs : List Rec)
    (h : k + xs.length ≤ i) :
    removeIdxsFrom k (i :: rest) xs = removeIdxsFrom k rest xs := by
  induction xs generalizing k with
  | nil => rfl
  | cons a t ih =>
    have hki : k ≠ i := by
      simp only [List.length_cons] at h
      omega
    have hmem : k ∈ i :: rest ↔ k ∈ rest := by
      simp [List.mem_cons, hki]
    simp only [removeIdxsFrom, hmem]
    rw [ih (k + 1) (by simp only [List.length_cons] at h; omega)]

theorem removeIdxsFrom_congr (idxs idxs' : List Nat) (rs : List Rec) (k : Nat)
    (h : ∀ j, j ∈ idxs ↔ j ∈ idxs') :
    removeIdxsFrom k idxs rs = removeIdxsFrom k idxs' rs := by
  induction rs generalizing k with
  | nil => rfl
  | cons a t ih =>
    simp only [removeIdxsFrom]
    by_cases hk : k ∈ idxs
    · rw [if_pos hk, if_pos ((h k).mp hk), ih (k + 1)]
    · rw [if_neg hk, if_neg (fun hc => hk ((h k).mpr hc)), ih (k + 1)]

/-- Popping a strictly descending list of in-range indices removes
exactly the records at those positions, preserving the order of the
rest. -/
theorem popLoop_removes (idxs : List Nat) (rs : List Rec)
    (hsorted : List.Pairwise (fun a b => b < a) idxs)
    (hlt : ∀ i ∈ idxs, i < rs.length) :
    popLoop rs idxs = (removeIdxsFrom 0 idxs rs, none) := by
  induction idxs generalizing rs with
  | nil =>
    simp only [popLoop]
    rw [removeIdxsFrom_high 0 [] rs (by simp)]
  | cons i rest ih =>
    have hi : i < rs.length := hlt i (List.mem_cons_self _ _)
    have hrest_lt : ∀ j ∈ rest, j < i :=
      fun j hj => (List.pairwise_cons.mp hsorted).1 j hj
    simp only [popLoop, if_pos hi]
    have hlen' : (rs.take i ++ rs.drop (i + 1)).length = rs.length - 1 := by
      simp only [List.length_append, List.length_take, List.length_drop]
      omega
    rw [ih (rs.take i ++ rs.drop (i + 1)) (List.pairwise_cons.mp hsorted).2
      (fun j hj => by rw [hlen']; have := hrest_lt j hj; omega)]
    have htl : (rs.take i).length = i := by
      simp only [List.length_take]
      omega
    have key : removeIdxsFrom 0 (i :: rest) rs
        = removeIdxsFrom 0 rest (rs.take i ++ rs.drop (i + 1)) := by
      conv_lhs => rw [← List.take_append_drop i rs, List.drop_eq_getElem_cons hi]
      rw [removeIdxsFrom_append, removeIdxsFrom_append, htl]
      congr 1
      · exact removeIdxsFrom_cons_high 0 i rest (rs.take i) (by omega)
      · simp only [removeIdxsFrom, List.mem_cons, true_or, if_pos, Nat.zero_add,
          List.nil_append]
        rw [removeIdxsFrom_high (i + 1) (i :: rest) (rs.drop (i + 1))
            (by intro j hj; rcases List.mem_cons.mp hj with rfl | hj
                · omega
                · have := hrest_lt j hj; omega),
          removeIdxsFrom_high i rest (rs.drop (i + 1)) hrest_lt]
    rw [key]

/-- C6 (amended): `delete(key(s))` resolves the keys to indices, sorts
them descending and pops each; when the resolved indices are pairwise
distinct this removes exactly the records at the resolved positions and
the remaining records keep their relative order. (With duplicate
resolved indices the later pops act on the already-shrunk list, removing
unresolved records or raising `IndexError` — see the counterexample.) -/
theorem delete_batch (reg : Registry) (keys : KeyArg) (indices : List Nat)
    (hres : resolve_indices reg keys = .ok indices)
    (hnd : indices.Nodup) :
    delitem reg keys
      = ({ reg with records := removeIdxsFrom 0 indices reg.records }, none) := by
  have hlt : ∀ i ∈ indices, i < reg.records.length :=
    (mapResolve_ok reg (ensureListKey keys) indices hres).2
  have hperm : (sortDesc indices).Perm indices := List.perm_insertionSort _ indices
  have hsorted : List.Pairwise (fun a b => b < a) (sortDesc indices) := by
    have hs : List.Pairwise (fun a b : Nat => a ≥ b) (sortDesc indices) :=
      List.sorted_insertionSort _ indices
    have hn : List.Pairwise (fun a b : Nat => a ≠ b) (sortDesc indices) :=
      (hperm.nodup_iff).mpr hnd
    exact (hs.and hn).imp fun h => lt_of_le_of_ne h.1 (Ne.symm h.2)
  have hpop : popLoop reg.records (sortDesc indices)
      = (removeIdxsFrom 0 indices reg.records, none) := by
    rw [popLoop_removes (sortDesc indices) reg.records hsorted
      (fun i hi => hlt i (hperm.mem_iff.mp hi))]
    rw [removeIdxsFrom_congr (sortDesc indices) indices reg.records 0
      (fun j => hperm.mem_iff)]
  unfold delitem
  simp only [hres, hpop]

theorem delete_batch_witness :
    delitem { key_configs := [cfgNames, cfgIds], records := [recAlice, recBob, recCara] }
      (KeyArg.many [Val.uuid 1, Val.uuid 3])
      = ({ key_configs := [cfgNames, cfgIds],
           records := removeIdxsFrom 0 [0, 2] [recAlice, recBob, recCara] }, none) :=
  delete_batch
    { key_configs := [cfgNames, cfgIds], records := [recAlice, recBob, recCara] }
    (KeyArg.many [Val.uuid 1, Val.uuid 3]) [0, 2] (by decide) (by decide)

/-- C6 counterexample: when the resolved index list contains duplicates,
the descending pops do not remove "exactly the resolved records": deleting
keys `[1, 1]` from `[Alice, Bob, Cara]` resolves to indices `[1, 1]`, but
the two pops at position 1 of the shrinking list remove Bob and then
Cara, leaving `[Alice]` instead of `[Alice, Cara]`. -/
theorem delete_batch_duplicate_cex :
    resolve_indices
        { key_configs := [cfgNames, cfgIds], records := [recAlice, recBob, recCara] }
        (KeyArg.many [Val.int 1, Val.int 1]) = .ok [1, 1]
    ∧ delitem
        { key_configs := [cfgNames, cfgIds], records := [recAlice, recBob, recCara] }
        (KeyArg.many [Val.int 1, Val.int 1])
      = ({ key_configs := [cfgNames, cfgIds], records := [recAlice] }, none)
    ∧ ([recAlice] : List Rec) ≠ [recAlice, recCara] := by
  refine ⟨by decide, by decide, by decide⟩
